import Mathlib

/- Verification of the spatial-optimization core of scXML_neuron_excite_inhib.

   Shallow embedding (translated from the Python sources):
   * serpentine.py : get_quadrant, generate_serpentine_wells, calculate_dynamic_blanks
   * assign.py     : the blank-distribution step (random.seed + random.sample + sorted)
                     and the well-assignment loop
   * tsp.py        : greedy_tsp, two_opt_improve, optimize_tsp
   * reduce.py     : rdp_algorithm

   Machine integers are modelled as Nat with explicit reduction mod 2^32 where
   CPython uses uint32 arithmetic (Mersenne Twister).  The floating-point
   Euclidean distance of tsp.py is modelled as an abstract rational-valued
   distance oracle `d : Nat -> Nat -> Rat` on centroid indices: every algorithm
   in tsp.py consults distances only through comparisons and sums, and the
   claims quantify over all centroid collections, so theorems are stated for
   every (symmetric) oracle.  reduce.py's comparison |cross|/L > eps is
   embedded as the algebraically equivalent cross^2 > eps^2 * L^2 (valid for
   eps >= 0, and coinciding with numpy's NaN behaviour on a degenerate chord).
-/

set_option maxRecDepth 20000

/-! ### serpentine.py -/

/-- serpentine.py: the row alphabet `abc = 'ABCDEFGHIJKLMNOPQRST'`. -/
def abcRows : List Char :=
  ['A','B','C','D','E','F','G','H','I','J','K','L','M','N','O','P','Q','R','S','T']

/-- Python `f"{row}{col}"`: render a well identifier string. -/
def mkWell (row : Char) (col : Nat) : String :=
  String.mk (row :: Nat.toDigits 10 col)

/-- Python `int(s)` on a digits-only string, as accumulated base-10 value of
the characters (all well strings produced here have digits-only tails). -/
def natOfDigits (cs : List Char) : Nat :=
  cs.foldl (fun n c => n * 10 + (c.toNat - '0'.toNat)) 0

/-- serpentine.py `get_quadrant`: parse the row letter and column number out of
the well string and classify by row-index parity and column parity. -/
def get_quadrant (well : String) : String :=
  let row_letter := well.toList.headD 'A'
  let col_number := natOfDigits (well.toList.drop 1)
  let row_idx := abcRows.indexOf row_letter
  let row_is_even := row_idx % 2 == 1
  let col_is_even := col_number % 2 == 0
  if row_is_even && col_is_even then "B2"
  else if row_is_even && !col_is_even then "B3"
  else if !row_is_even && col_is_even then "C2"
  else "C3"

/-- One serpentine phase: for each row (with its position in the row list),
sweep the columns left-to-right on even row positions and right-to-left on odd
row positions, emitting `f"{row}{col}"` for each column.  This is the loop body
repeated verbatim for phases 1, 3 and 4 of `generate_serpentine_wells`. -/
def serpentinePhase (rows : List Char) (cols : List Nat) : List String :=
  (rows.enum.map (fun rc =>
    (if rc.1 % 2 == 0 then cols else cols.reverse).map (mkWell rc.2))).flatten

/-- serpentine.py `generate_serpentine_wells`: the fixed four-phase traversal
of the 384-well plate working area. -/
def generate_serpentine_wells : List String :=
  -- Phase 1: even columns range(2, 23, 2), rows B,D,F,H,J,L,N (serpentine)
  let phase1 := serpentinePhase ['B','D','F','H','J','L','N'] (List.range' 2 11 2)
  -- Phase 2: register switch, row N, odd columns range(23, 2, -2)
  let phase2 := [23,21,19,17,15,13,11,9,7,5,3].map (mkWell 'N')
  -- Phase 3: odd columns range(3, 24, 2), rows L,J,H,F,D,B (serpentine back up)
  let phase3 := serpentinePhase ['L','J','H','F','D','B'] (List.range' 3 11 2)
  -- Phase 4: even columns range(2, 23, 2), rows C,E,G,I,K,M,O (serpentine)
  let phase4 := serpentinePhase ['C','E','G','I','K','M','O'] (List.range' 2 11 2)
  phase1 ++ phase2 ++ phase3 ++ phase4

/-- serpentine.py `calculate_dynamic_blanks`: blanks needed to complete the
current quadrant. -/
def calculate_dynamic_blanks (num_samples : Nat) (quadrant_size : Nat) : Nat :=
  let samples_in_current_quadrant := num_samples % quadrant_size
  if samples_in_current_quadrant > 0 then quadrant_size - samples_in_current_quadrant
  else 0

/-! Explicit phase well lists, written out from the claim text: rows
B,D,F,H,J,L,N over even columns 2..22 serpentine; then row N over odd columns
23 down to 3; then rows L,J,H,F,D,B over odd columns 3..23 serpentine; then
rows C,E,G,I,K,M,O over even columns 2..22 serpentine.  These literals are the
comparison target for claim C6. -/

/-- Claimed phase 1: rows B,D,F,H,J,L,N over even columns 2..22, serpentine. -/
def claimPhase1 : List String :=
  ["B2", "B4", "B6", "B8", "B10", "B12", "B14", "B16", "B18", "B20", "B22",
   "D22", "D20", "D18", "D16", "D14", "D12", "D10", "D8", "D6", "D4", "D2",
   "F2", "F4", "F6", "F8", "F10", "F12", "F14", "F16", "F18", "F20", "F22",
   "H22", "H20", "H18", "H16", "H14", "H12", "H10", "H8", "H6", "H4", "H2",
   "J2", "J4", "J6", "J8", "J10", "J12", "J14", "J16", "J18", "J20", "J22",
   "L22", "L20", "L18", "L16", "L14", "L12", "L10", "L8", "L6", "L4", "L2",
   "N2", "N4", "N6", "N8", "N10", "N12", "N14", "N16", "N18", "N20", "N22"]

/-- Claimed phase 2: row N over odd columns 23 down to 3. -/
def claimPhase2 : List String :=
  ["N23", "N21", "N19", "N17", "N15", "N13", "N11", "N9", "N7", "N5", "N3"]

/-- Claimed phase 3: rows L,J,H,F,D,B over odd columns 3..23, serpentine. -/
def claimPhase3 : List String :=
  ["L3", "L5", "L7", "L9", "L11", "L13", "L15", "L17", "L19", "L21", "L23",
   "J23", "J21", "J19", "J17", "J15", "J13", "J11", "J9", "J7", "J5", "J3",
   "H3", "H5", "H7", "H9", "H11", "H13", "H15", "H17", "H19", "H21", "H23",
   "F23", "F21", "F19", "F17", "F15", "F13", "F11", "F9", "F7", "F5", "F3",
   "D3", "D5", "D7", "D9", "D11", "D13", "D15", "D17", "D19", "D21", "D23",
   "B23", "B21", "B19", "B17", "B15", "B13", "B11", "B9", "B7", "B5", "B3"]

/-- Claimed phase 4: rows C,E,G,I,K,M,O over even columns 2..22, serpentine. -/
def claimPhase4 : List String :=
  ["C2", "C4", "C6", "C8", "C10", "C12", "C14", "C16", "C18", "C20", "C22",
   "E22", "E20", "E18", "E16", "E14", "E12", "E10", "E8", "E6", "E4", "E2",
   "G2", "G4", "G6", "G8", "G10", "G12", "G14", "G16", "G18", "G20", "G22",
   "I22", "I20", "I18", "I16", "I14", "I12", "I10", "I8", "I6", "I4", "I2",
   "K2", "K4", "K6", "K8", "K10", "K12", "K14", "K16", "K18", "K20", "K22",
   "M22", "M20", "M18", "M16", "M14", "M12", "M10", "M8", "M6", "M4", "M2",
   "O2", "O4", "O6", "O8", "O10", "O12", "O14", "O16", "O18", "O20", "O22"]

/-! ### CPython's Mersenne Twister and `random.sample`

assign.py line 158 seeds the global `random` instance (`random.seed(seed)`)
and line 162 draws `sorted(random.sample(range(len(wells)), num_blanks))`.
That pipeline is embedded below, following CPython's `_randommodule.c`
(MT19937 with `init_by_array` seeding) and `Lib/random.py` (`sample`,
`_randbelow_with_getrandbits`).  All 32-bit arithmetic is Nat with explicit
reduction mod 2^32.  The 624-word uint32 state array is packed into a single
Nat, word i occupying bits 32*i .. 32*i+31 (`getWord`/`setWord`), so that the
kernel can evaluate the generator on concrete seeds.  The rejection loops of
`_randbelow` and of the set-branch of `sample` have no static bound, so they
carry fuel and the embedding returns an Option; `none` never occurs on the
concrete runs below.
-/

/-- 2^32, the uint32 modulus. -/
def U32 : Nat := 4294967296

/-- Reduce mod 2^32 (C uint32 truncation). -/
def u32 (x : Nat) : Nat := x % U32

/-- Kernel-evaluation aid: definitionally just `y`, but reducing it forces
`x` to a numeral first, which keeps the evaluation of the long tail-recursive
generator loops shallow enough for the kernel stack.  `strictEval_eq` below
removes it in proofs; it has no semantic content. -/
def strictEval (x : Nat) (y : α) : α := if x = 0 then y else y

/-- Word i of a packed uint32 array (bits 32*i .. 32*i+31). -/
def getWord (s i : Nat) : Nat := s / 2 ^ (32 * i) % U32

/-- Replace word i of a packed uint32 array with v (v < 2^32). -/
def setWord (s i v : Nat) : Nat := s - getWord s i * 2 ^ (32 * i) + v * 2 ^ (32 * i)

/-- init_genrand inner loop: packed accumulator, previous word, index, words
remaining.  `mt[i] = (1812433253 * (mt[i-1] ^ (mt[i-1] >> 30)) + i)` mod 2^32. -/
def initGenrandFrom : Nat → Nat → Nat → Nat → Nat
  | acc, _, _, 0 => acc
  | acc, prev, i, fuel+1 =>
    let cur := u32 (1812433253 * (Nat.xor prev (prev >>> 30)) + i)
    let acc1 := acc + cur * 2 ^ (32 * i)
    strictEval acc1 (initGenrandFrom acc1 cur (i+1) fuel)

/-- `init_genrand(s)`: the 624-word base state, packed. -/
def init_genrand (s : Nat) : Nat :=
  initGenrandFrom (u32 s) (u32 s) 1 623

/-- First mixing pass of `init_by_array`: packed state, loop indices i and j,
words remaining.  Returns the state together with the final value of i (which
the C code carries into the second pass). -/
def ibaPass1 (key : List Nat) : Nat → Nat → Nat → Nat → Nat × Nat
  | mt, i, _, 0 => (mt, i)
  | mt, i, j, k+1 =>
    let prev := getWord mt (i-1)
    let cur := u32 (Nat.xor (getWord mt i) (u32 ((Nat.xor prev (prev >>> 30)) * 1664525))
                    + key.getD j 0 + j)
    let mt1 := setWord mt i cur
    let wrapped := i + 1 ≥ 624
    let mt2 := if wrapped then setWord mt1 0 (getWord mt1 623) else mt1
    let i2 := if wrapped then 1 else i + 1
    let j2 := if j + 1 ≥ key.length then 0 else j + 1
    strictEval mt2 (ibaPass1 key mt2 i2 j2 k)

/-- Second mixing pass of `init_by_array`: `mt[i] = (mt[i] ^ ((mt[i-1] ^
(mt[i-1] >> 30)) * 1566083941)) - i` mod 2^32. -/
def ibaPass2 : Nat → Nat → Nat → Nat
  | mt, _, 0 => mt
  | mt, i, k+1 =>
    let prev := getWord mt (i-1)
    let cur := (Nat.xor (getWord mt i) (u32 ((Nat.xor prev (prev >>> 30)) * 1566083941))
                + U32 - i) % U32
    let mt1 := setWord mt i cur
    let wrapped := i + 1 ≥ 624
    let mt2 := if wrapped then setWord mt1 0 (getWord mt1 623) else mt1
    let i2 := if wrapped then 1 else i + 1
    strictEval mt2 (ibaPass2 mt2 i2 k)

/-- `init_by_array(key)`: seed the state from a key array, then pin
`mt[0] = 0x80000000`. -/
def init_by_array (key : List Nat) : Nat :=
  let p1 := ibaPass1 key (init_genrand 19650218) 1 0 (max 624 key.length)
  let mt2 := ibaPass2 p1.1 p1.2 623
  setWord mt2 0 2147483648

/-- Split a seed into little-endian 32-bit words (at least one word), as
CPython's `random_seed` does for an int argument (after taking the absolute
value; seeds here are already nonnegative). -/
def seedKeyAux : Nat → Nat → List Nat
  | _, 0 => []
  | n, fuel+1 => if n = 0 then [] else (n % U32) :: seedKeyAux (n / U32) fuel

/-- The key array CPython passes to `init_by_array` for an int seed. -/
def seedKey (n : Nat) : List Nat :=
  if n = 0 then [0] else seedKeyAux n n

/-- Mersenne Twister state: packed 624-word array plus the read index. -/
structure MTState where
  mt : Nat
  mti : Nat

/-- Seeded state: `random.seed(n)`.  init_genrand/init_by_array leave the
index at 624 so the first draw performs a full twist. -/
def pySeed (n : Nat) : MTState :=
  MTState.mk (init_by_array (seedKey n)) 624

/-- One in-place step of the twist loop.  Reading `mt[(kk+1) % 624]` and
`mt[(kk+397) % 624]` from the partially updated array reproduces exactly the
three-region in-place loop of `genrand_uint32`. -/
def twistLoop : Nat → Nat → Nat → Nat
  | mt, _, 0 => mt
  | mt, kk, fuel+1 =>
    let y := Nat.lor (Nat.land (getWord mt kk) 2147483648)
                     (Nat.land (getWord mt ((kk+1) % 624)) 2147483647)
    let mag := if y % 2 = 1 then 2567483615 else 0
    let v := Nat.xor (Nat.xor (getWord mt ((kk + 397) % 624)) (y >>> 1)) mag
    let mt1 := setWord mt kk v
    strictEval mt1 (twistLoop mt1 (kk+1) fuel)

/-- Full state twist (the `if (self->index >= N)` block). -/
def twist (mt : Nat) : Nat := twistLoop mt 0 624

/-- `genrand_uint32`: twist when the index is exhausted, then read one word
and temper it. -/
def genrand_uint32 (st : MTState) : Nat × MTState :=
  let st1 := if st.mti ≥ 624 then MTState.mk (twist st.mt) 0 else st
  let y0 := getWord st1.mt st1.mti
  let y1 := Nat.xor y0 (y0 >>> 11)
  let y2 := Nat.xor y1 (Nat.land (u32 (y1 <<< 7)) 2636928640)
  let y3 := Nat.xor y2 (Nat.land (u32 (y2 <<< 15)) 4022730752)
  let y4 := Nat.xor y3 (y3 >>> 18)
  (y4, MTState.mk st1.mt (st1.mti + 1))

/-- Word loop of `getrandbits` for k > 32: draw 32-bit words little-endian,
truncating the last word to the remaining bit count. -/
def grbWords : Nat → MTState → Nat → Nat → Nat × MTState
  | _, st, _, 0 => (0, st)
  | rem, st, shift, fuel+1 =>
    let r := genrand_uint32 st
    if rem ≤ 32 then
      ((r.1 >>> (32 - rem)) <<< shift, r.2)
    else
      let rest := grbWords (rem - 32) r.2 (shift + 32) fuel
      ((r.1 <<< shift) + rest.1, rest.2)

/-- `getrandbits(k)`: the top k bits of one draw for k <= 32, otherwise the
little-endian word combination. -/
def getrandbits (k : Nat) (st : MTState) : Nat × MTState :=
  if k = 0 then (0, st)
  else if k ≤ 32 then
    let r := genrand_uint32 st
    (r.1 >>> (32 - k), r.2)
  else grbWords k st 0 ((k - 1) / 32 + 1)

/-- Python `n.bit_length()` (structural, fuel = n is ample). -/
def bitLenAux : Nat → Nat → Nat
  | 0, _ => 0
  | fuel+1, n => if n = 0 then 0 else bitLenAux fuel (n / 2) + 1

/-- Python `n.bit_length()`. -/
def bit_length (n : Nat) : Nat := bitLenAux n n

/-- Rejection loop of `_randbelow_with_getrandbits`: redraw k-bit values
until one is `< n`. -/
def randbelowLoop (n k : Nat) : MTState → Nat → Option (Nat × MTState)
  | _, 0 => none
  | st, fuel+1 =>
    let r := getrandbits k st
    if r.1 < n then some (r.1, r.2) else randbelowLoop n k r.2 fuel

/-- `self._randbelow(n)`: a uniform draw below n by k-bit rejection. -/
def randbelow (n : Nat) (st : MTState) : Option (Nat × MTState) :=
  randbelowLoop n (bit_length n) st 1000

/-- Smallest e with `4^e >= m`; agrees with `ceil(log(m, 4))` (3*k is never an
exact power of 4, so the float rounding in `random.sample` cannot differ). -/
def ceilLog4From (m : Nat) : Nat → Nat → Nat
  | e, 0 => e
  | e, fuel+1 => if m ≤ 4 ^ e then e else ceilLog4From m (e+1) fuel

/-- `ceil(log(m, 4))` as used in `sample`'s setsize estimate. -/
def ceilLog4 (m : Nat) : Nat := ceilLog4From m 0 m

/-- `sample`'s size estimate for a k-element set. -/
def sampleSetsize (k : Nat) : Nat :=
  21 + (if k > 5 then 4 ^ ceilLog4 (3 * k) else 0)

/-- Pool branch of `sample` over `population = range(n)`:
`j = randbelow(n-i); result[i] = pool[j]; pool[j] = pool[n-i-1]`. -/
def samplePoolLoop (n : Nat) : MTState → List Nat → Nat → Nat → List Nat →
    Option (List Nat × MTState)
  | st, _, _, 0, acc => some (acc, st)
  | st, pool, i, k+1, acc =>
    match randbelow (n - i) st with
    | none => none
    | some (j, st1) =>
      let picked := pool.getD j 0
      let pool1 := pool.set j (pool.getD (n - i - 1) 0)
      samplePoolLoop n st1 pool1 (i+1) k (acc ++ [picked])

/-- Inner retry of the set branch: redraw while `j in selected`. -/
def drawUnselected (n : Nat) (selected : List Nat) : MTState → Nat →
    Option (Nat × MTState)
  | _, 0 => none
  | st, fuel+1 =>
    match randbelow n st with
    | none => none
    | some (j, st1) =>
      if j ∈ selected then drawUnselected n selected st1 fuel else some (j, st1)

/-- Set branch of `sample` over `population = range(n)` (`result[i] =
population[j] = j`). -/
def sampleSetLoop (n : Nat) : MTState → Nat → List Nat → List Nat →
    Option (List Nat × MTState)
  | st, 0, _, acc => some (acc, st)
  | st, k+1, selected, acc =>
    match drawUnselected n selected st 1000 with
    | none => none
    | some (j, st1) => sampleSetLoop n st1 k (selected ++ [j]) (acc ++ [j])

/-- `random.sample(range(n), k)`: ValueError (`none`) when `k > n`, otherwise
the pool branch when an n-element pool is no larger than a k-element set, and
the rejection-set branch otherwise. -/
def pySample (n k : Nat) (st : MTState) : Option (List Nat) :=
  if k ≤ n then
    if n ≤ sampleSetsize k then
      (samplePoolLoop n st (List.range n) 0 k []).map Prod.fst
    else
      (sampleSetLoop n st k [] []).map Prod.fst
  else none

/-- The Blank Distributor of assign.py lines 158-162:
`random.seed(seed)` then `sorted(random.sample(range(sequence_length),
blank_count))`.  A pure function of (blank_count, sequence_length, seed). -/
def distribute (blank_count sequence_length seed : Nat) : Option (List Nat) :=
  (pySample sequence_length blank_count (pySeed seed)).map
    (List.insertionSort (· ≤ ·))

/-! ### assign.py: the well-assignment loop (lines 172-209)

Each produced entry records the well string, the serpentine position
(`serpentine_order`), and either the consumed sample index or `none` for the
BLANK sentinel.  (The remaining CSV fields -- source file, original index,
centroids, quadrant -- are lookups from the combined metadata and
`get_quadrant`; they play no role in the claims about consumption and
placement.)  Positions that are neither blank nor backed by a remaining
sample produce no entry, exactly like the `if sample_idx < len(...)` guard. -/

/-- The assignment loop over the remaining positions, threading `sample_idx`. -/
def wmLoop (wells : List String) (blanks : List Nat) (numSamples : Nat) :
    List Nat → Nat → List (String × Nat × Option Nat)
  | [], _ => []
  | p :: ps, sampleIdx =>
    if p ∈ blanks then
      (wells.getD p "", p, none) :: wmLoop wells blanks numSamples ps sampleIdx
    else if sampleIdx < numSamples then
      (wells.getD p "", p, some sampleIdx) :: wmLoop wells blanks numSamples ps (sampleIdx + 1)
    else wmLoop wells blanks numSamples ps sampleIdx

/-- assign.py `well_mapping` construction: walk every position of the well
sequence in order starting with `sample_idx = 0`. -/
def well_mapping (wells : List String) (blanks : List Nat) (numSamples : Nat) :
    List (String × Nat × Option Nat) :=
  wmLoop wells blanks numSamples (List.range wells.length) 0

/-! ### tsp.py

`calculate_distance` is `np.sqrt((dx)^2 + (dy)^2)` on floats.  Every use in
tsp.py consults distances only through `<` comparisons and two-term sums, so
the embedding abstracts the centroid list behind a rational-valued distance
oracle `d : Nat -> Nat -> Rat` on indices; the claims quantify over all
centroid collections, and the theorems quantify over all such oracles
(with symmetry `d i j = d j i` where the claim needs it, which Euclidean
distance satisfies). -/

/-- Python `min(iterable, key=...)` over a nonempty collection: the first
element attaining the minimal key (only a strictly smaller key replaces the
current best). -/
def pyMinKey (key : Nat → ℚ) : Nat → List Nat → Nat
  | best, [] => best
  | best, x :: xs =>
    if key x < key best then pyMinKey key x xs else pyMinKey key best xs

/-- greedy_tsp `while unvisited:` loop: pick the unvisited point nearest to
`current`, append it, remove it.  Fuel is the initial size of `unvisited`
(the loop removes one element per iteration). -/
def greedyLoop (d : Nat → Nat → ℚ) : Nat → Nat → List Nat → List Nat → List Nat
  | 0, _, _, tour => tour
  | fuel+1, current, unvisited, tour =>
    match unvisited with
    | [] => tour
    | x :: xs =>
      let nearest := pyMinKey (fun i => d current i) x xs
      greedyLoop d fuel nearest ((x :: xs).erase nearest) (tour ++ [nearest])

/-- tsp.py `greedy_tsp`: `unvisited = set(range(n))` (small-int sets iterate
ascending), `unvisited.remove(start_index)` raises KeyError (`none`) when the
start index is absent -- in particular for `n = 0`. -/
def greedy_tsp (d : Nat → Nat → ℚ) (n start : Nat) : Option (List Nat) :=
  let unvisited := List.range n
  if start ∈ unvisited then
    some (greedyLoop d n start (unvisited.erase start) [start])
  else none

/-- The slice assignment `tour[i:j+1] = list(reversed(tour[i:j+1]))`. -/
def reverseSegment (t : List Nat) (i j : Nat) : List Nat :=
  t.take i ++ ((t.take (j+1)).drop i).reverse ++ t.drop (j+1)

/-- One (i, j) iteration of the 2-opt scan: compare the two current edges
with the two reconnected edges and reverse the segment when strictly
shorter.  Returns the tour and whether a reversal happened. -/
def twoOptStep (d : Nat → Nat → ℚ) (n : Nat) (t : List Nat) (i j : Nat) :
    List Nat × Bool :=
  let current_dist := d (t.getD (i-1) 0) (t.getD i 0) + d (t.getD j 0) (t.getD ((j+1) % n) 0)
  let new_dist := d (t.getD (i-1) 0) (t.getD j 0) + d (t.getD i 0) (t.getD ((j+1) % n) 0)
  if new_dist < current_dist then (reverseSegment t i j, true) else (t, false)

/-- One full pass of the nested `for i in range(1, n-1): for j in range(i+1, n)`
scan, threading the tour and the `improved` flag. -/
def twoOptPass (d : Nat → Nat → ℚ) (n : Nat) (t0 : List Nat) : List Nat × Bool :=
  (List.range' 1 (n - 2)).foldl
    (fun st i =>
      (List.range' (i+1) (n - (i+1))).foldl
        (fun st2 j =>
          let r := twoOptStep d n st2.1 i j
          (r.1, st2.2 || r.2))
        st)
    (t0, false)

/-- The `while improved and iteration < max_iterations` outer loop. -/
def twoOptLoop (d : Nat → Nat → ℚ) (n : Nat) : Nat → List Nat → List Nat
  | 0, t => t
  | fuel+1, t =>
    let r := twoOptPass d n t
    if r.2 then twoOptLoop d n fuel r.1 else r.1

/-- tsp.py `two_opt_improve` (`n = len(tour)` is computed once on entry). -/
def two_opt_improve (d : Nat → Nat → ℚ) (tour : List Nat) (max_iterations : Nat) :
    List Nat :=
  twoOptLoop d tour.length max_iterations tour

/-- tsp.py's closed-loop total distance:
`sum(dist(tour[i], tour[(i+1) % len(tour)]) for i in range(len(tour)))`. -/
def total_distance (d : Nat → Nat → ℚ) (tour : List Nat) : ℚ :=
  ((List.range tour.length).map (fun i =>
    d (tour.getD i 0) (tour.getD ((i+1) % tour.length) 0))).sum

/-- tsp.py `optimize_tsp`: greedy construction, then 2-opt improvement with
the default cap of 1000 passes, then the closed-loop distance. -/
def optimize_tsp (d : Nat → Nat → ℚ) (n start : Nat) : Option (List Nat × ℚ) :=
  (greedy_tsp d n start).map (fun tour =>
    let tour2 := two_opt_improve d tour 1000
    (tour2, total_distance d tour2))

/-! ### reduce.py: `rdp_algorithm`

Points are exact pairs of rationals.  numpy computes, per point p, the
perpendicular distance `|cross(end-start, p-start)| / norm(end-start)` and
tests `dist[argmax] > epsilon`.  Dividing by the common positive norm does
not change the argmax (ties keep the first index, as `np.argmax` does), and
for `epsilon >= 0` the test `|c|/L > epsilon` is equivalent to
`c^2 > epsilon^2 * L^2`; when the chord is degenerate (L = 0) every cross
product is 0, numpy produces NaN distances, `nan > epsilon` is False and the
code returns the two endpoints -- matching `0 > 0` here.  The recursion is on
`points[:max_idx+1]` and `points[max_idx:]`, and the second comprehension
filters right-hand points whose value already occurs in the left result. -/

/-- The 2-d cross product `np.cross(e - o, p - o)`. -/
def cross2 (o e p : ℚ × ℚ) : ℚ :=
  (e.1 - o.1) * (p.2 - o.2) - (e.2 - o.2) * (p.1 - o.1)

/-- Squared chord length `norm(end - start)^2`. -/
def normSq (o e : ℚ × ℚ) : ℚ := (e.1 - o.1) ^ 2 + (e.2 - o.2) ^ 2

/-- `np.argmax` over the absolute values: index of the first maximum. -/
def argmaxAbsAux : List ℚ → Nat → Nat → ℚ → Nat
  | [], _, best, _ => best
  | a :: rest, idx, best, bestv =>
    if |a| > bestv then argmaxAbsAux rest (idx+1) idx |a|
    else argmaxAbsAux rest (idx+1) best bestv

/-- `np.argmax(np.abs(crosses))` (0 on the empty list). -/
def argmaxAbs : List ℚ → Nat
  | [] => 0
  | a :: rest => argmaxAbsAux rest 1 0 |a|

/-- reduce.py `rdp_algorithm`. -/
def rdp_algorithm (points : List (ℚ × ℚ)) (eps : ℚ) : List (ℚ × ℚ) :=
  let p0 := points.headD (0, 0)
  let pn := points.getLastD (0, 0)
  let crosses := points.map (cross2 p0 pn)
  let m := argmaxAbs crosses
  if h : eps ^ 2 * normSq p0 pn < (crosses.getD m 0) ^ 2 then
    let left := rdp_algorithm (points.take (m+1)) eps
    let right := rdp_algorithm (points.drop m) eps
    left ++ right.filter (fun p => ¬ p ∈ left)
  else [p0, pn]
termination_by points.length
decreasing_by
  all_goals
    have hc : (points.map (cross2 (points.headD (0, 0)) (points.getLastD (0, 0)))).getD
        (argmaxAbs (points.map (cross2 (points.headD (0, 0)) (points.getLastD (0, 0))))) 0 ≠ 0 := by
      intro hz
      rw [hz] at h
      have h1 : (0:ℚ) ≤ eps ^ 2 * normSq (points.headD (0, 0)) (points.getLastD (0, 0)) :=
        mul_nonneg (sq_nonneg _) (add_nonneg (sq_nonneg _) (sq_nonneg _))
      simp only [ne_eq, zero_pow, OfNat.ofNat_ne_zero, not_false_eq_true] at h
      exact absurd h (not_lt.mpr h1)
  all_goals
    set m := argmaxAbs (points.map (cross2 (points.headD (0, 0)) (points.getLastD (0, 0)))) with hm
  all_goals
    have hmlt : m < points.length := by
      by_contra hge
      exact hc (List.getD_eq_default _ _ (by simpa using not_lt.mp hge))
  all_goals
    have hm0 : m ≠ 0 := by
      intro h0
      apply hc
      rw [h0]
      have hne : points ≠ [] := by
        intro he; rw [he] at hmlt; simp at hmlt
      obtain ⟨a, as, rfl⟩ := List.exists_cons_of_ne_nil hne
      simp only [List.map_cons, List.getD_cons_zero, List.headD_cons]
      simp only [cross2]
      ring
  · -- take branch: m + 1 < points.length
    have hmlast : m ≠ points.length - 1 := by
      intro hlast
      apply hc
      rw [hlast]
      have hlen : points.length - 1 < (points.map (cross2 (points.headD (0, 0)) (points.getLastD (0, 0)))).length := by
        simp only [List.length_map]
        omega
      rw [List.getD_eq_getElem _ _ hlen]
      have hlen2 : points.length - 1 < points.length := by omega
      simp only [List.getElem_map]
      have : points[points.length - 1] = points.getLastD (0, 0) := by
        rw [List.getLastD_eq_getLast?, List.getLast?_eq_getElem?]
        simp [List.getElem?_eq_getElem hlen2]
      rw [this]
      simp only [cross2]
      ring
    simp only [List.length_take]
    omega
  · -- drop branch: points.length - m < points.length
    simp only [List.length_drop]
    omega

/-! Proof-support forms of the tour length: `pathD` sums consecutive edges of
an open path, `cyclicD` closes the loop by appending the head.  They are used
to reason about `total_distance` (whose source form indexes with `% n`). -/

/-- Open-path length: sum of `d` over consecutive pairs. -/
def pathD (d : Nat → Nat → ℚ) : List Nat → ℚ
  | [] => 0
  | [_] => 0
  | a :: b :: l => d a b + pathD d (b :: l)

/-- Closed-loop length: the open path extended back to its head. -/
def cyclicD (d : Nat → Nat → ℚ) : List Nat → ℚ
  | [] => 0
  | a :: l => pathD d ((a :: l) ++ [a])

/-- The 75 blank positions the code draws for 2 samples with seed 25
(`sorted(random.sample(range(231), 75))`); see `distribute75_eq`. -/
def blanks75 : List Nat :=
  [3, 8, 10, 14, 17, 18, 19, 24, 25, 26, 31, 32, 41, 44, 46,
   48, 50, 54, 56, 65, 72, 78, 80, 90, 91, 96, 103, 106, 108, 111,
   113, 114, 117, 120, 121, 123, 126, 129, 131, 134, 138, 140, 143, 144, 147,
   148, 149, 150, 153, 156, 158, 159, 162, 163, 173, 175, 181, 186, 193, 194,
   196, 198, 199, 203, 205, 213, 214, 215, 218, 219, 220, 222, 223, 224, 228]

/-- The 76 blank positions the code draws for 232 samples with seed 25; see
`distribute76_eq`. -/
def blanks76 : List Nat :=
  [3, 8, 10, 14, 17, 18, 19, 24, 25, 26, 31, 32, 41, 43, 44,
   46, 48, 50, 54, 56, 65, 72, 78, 80, 90, 91, 96, 103, 106, 108,
   111, 113, 114, 117, 120, 121, 123, 126, 129, 131, 134, 138, 140, 143, 144,
   147, 148, 149, 150, 153, 156, 158, 159, 162, 163, 173, 175, 181, 186, 193,
   194, 196, 198, 199, 203, 205, 213, 214, 215, 218, 219, 220, 222, 223, 224,
   228]

/-! ## Theorems -/

/-- `strictEval` is the identity; it only guides kernel evaluation. -/
@[simp] theorem strictEval_eq (x : Nat) (y : α) : strictEval x y = y := by
  unfold strictEval
  exact ite_self y

/-- C8: for every sample count x and positive quadrant size q,
`calculate_dynamic_blanks x q` equals `q - (x mod q)` when the remainder is
nonzero and 0 otherwise, so `x + calculate_dynamic_blanks x q` is always a
multiple of q; in particular the value is 0 at (77, 77) and 76 at (78, 77). -/
theorem calculate_dynamic_blanks_spec :
    (∀ x q, 0 < q →
      calculate_dynamic_blanks x q = (if x % q ≠ 0 then q - x % q else 0) ∧
      (x + calculate_dynamic_blanks x q) % q = 0) ∧
    calculate_dynamic_blanks 77 77 = 0 ∧ calculate_dynamic_blanks 78 77 = 76 := by
  refine ⟨?_, by decide, by decide⟩
  intro x q hq
  unfold calculate_dynamic_blanks
  constructor
  · by_cases h : x % q = 0 <;> simp [h]
  · by_cases h : x % q = 0
    · simp [h]
    · have hpos : 0 < x % q := Nat.pos_of_ne_zero h
      simp only [if_pos hpos]
      have hlt : x % q < q := Nat.mod_lt _ hq
      rw [Nat.add_mod, Nat.mod_eq_of_lt (show q - x % q < q by omega)]
      have heq : x % q + (q - x % q) = q := by omega
      rw [heq]
      exact Nat.mod_self q

/-- Witness for C8 at the claim's concrete inputs (x = 78, q = 77). -/
theorem calculate_dynamic_blanks_spec_witness :
    0 < 77 ∧
    (calculate_dynamic_blanks 78 77 = (if 78 % 77 ≠ 0 then 77 - 78 % 77 else 0) ∧
      (78 + calculate_dynamic_blanks 78 77) % 77 = 0) :=
  ⟨by decide, calculate_dynamic_blanks_spec.1 78 77 (by decide)⟩

/-- C6: `generate_serpentine_wells` takes no input and always returns the
same fixed list: it equals the literal concatenation of the four claimed
phases (rows B,D,F,H,J,L,N over even columns 2..22 serpentine; row N over odd
columns 23 down to 3; rows L,J,H,F,D,B over odd columns 3..23 serpentine;
rows C,E,G,I,K,M,O over even columns 2..22 serpentine), has length exactly
231, and contains no duplicate well identifier. -/
theorem generate_serpentine_wells_spec :
    generate_serpentine_wells = claimPhase1 ++ claimPhase2 ++ claimPhase3 ++ claimPhase4 ∧
    generate_serpentine_wells.length = 231 ∧
    generate_serpentine_wells.Nodup :=
  ⟨by decide, by decide, by decide⟩

/-- C10: the 231-well sequence splits into three quadrant-homogeneous blocks
of 77: `get_quadrant` returns "B2" on every well at positions 0..76, "B3" on
every well at positions 77..153, "C2" on every well at positions 154..230,
and "C3" on no well of the sequence. -/
theorem serpentine_quadrant_blocks :
    ((generate_serpentine_wells.take 77).all (fun w => get_quadrant w == "B2")) = true ∧
    (((generate_serpentine_wells.drop 77).take 77).all (fun w => get_quadrant w == "B3")) = true ∧
    ((generate_serpentine_wells.drop 154).all (fun w => get_quadrant w == "C2")) = true ∧
    (generate_serpentine_wells.all (fun w => get_quadrant w != "C3")) = true :=
  ⟨by decide, by decide, by decide, by decide⟩

/-! ### Tour Optimizer: permutation invariant -/

/-- Python's `min` over a nonempty collection returns one of its elements. -/
theorem pyMinKey_mem (key : Nat → ℚ) (b : Nat) (l : List Nat) :
    pyMinKey key b l ∈ b :: l := by
  induction l generalizing b with
  | nil => simp [pyMinKey]
  | cons x xs ih =>
    rw [pyMinKey]
    by_cases h : key x < key b
    · rw [if_pos h]
      exact List.mem_cons_of_mem _ (ih x)
    · rw [if_neg h]
      rcases List.mem_cons.mp (ih b) with h1 | h1
      · rw [h1]
        exact List.mem_cons_self _ _
      · exact List.mem_cons_of_mem _ (List.mem_cons_of_mem _ h1)

/-- The greedy loop only reorders: its output is a permutation of the tour
accumulated so far together with the unvisited points. -/
theorem greedyLoop_perm (d : Nat → Nat → ℚ) :
    ∀ fuel current unvisited tour, unvisited.length ≤ fuel →
      (greedyLoop d fuel current unvisited tour).Perm (tour ++ unvisited) := by
  intro fuel
  induction fuel with
  | zero =>
    intro current unvisited tour h
    have : unvisited = [] := List.eq_nil_of_length_eq_zero (Nat.le_zero.mp h)
    subst this
    simp [greedyLoop]
  | succ fuel ih =>
    intro current unvisited tour h
    match unvisited with
    | [] => simp [greedyLoop]
    | x :: xs =>
      simp only [greedyLoop]
      have hmem : pyMinKey (fun i => d current i) x xs ∈ x :: xs := pyMinKey_mem _ x xs
      have hlen : ((x :: xs).erase (pyMinKey (fun i => d current i) x xs)).length ≤ fuel := by
        rw [List.length_erase_of_mem hmem]
        simpa using Nat.le_of_succ_le_succ h
      have hrec := ih (pyMinKey (fun i => d current i) x xs)
        ((x :: xs).erase (pyMinKey (fun i => d current i) x xs))
        (tour ++ [pyMinKey (fun i => d current i) x xs]) hlen
      refine hrec.trans ?_
      rw [List.append_assoc]
      refine List.Perm.append_left tour ?_
      simpa using (List.perm_cons_erase hmem).symm

/-- `greedy_tsp` succeeds on every in-range start index and returns a
permutation of `0..n-1`. -/
theorem greedy_tsp_perm (d : Nat → Nat → ℚ) (n start : Nat) (hs : start < n) :
    ∃ t, greedy_tsp d n start = some t ∧ t.Perm (List.range n) := by
  have hmem : start ∈ List.range n := List.mem_range.mpr hs
  have heq : greedy_tsp d n start =
      some (greedyLoop d n start ((List.range n).erase start) [start]) := by
    simp [greedy_tsp, hmem]
  refine ⟨_, heq, ?_⟩
  have hlen : ((List.range n).erase start).length ≤ n := by
    rw [List.length_erase_of_mem hmem, List.length_range]
    omega
  have h := greedyLoop_perm d n start ((List.range n).erase start) [start] hlen
  refine h.trans ?_
  simpa using (List.perm_cons_erase hmem).symm

/-- A slice reversal permutes the tour (the slice bounds used by the 2-opt
scan always satisfy `i ≤ j + 1`). -/
theorem reverseSegment_perm (t : List Nat) (i j : Nat) (h : i ≤ j + 1) :
    (reverseSegment t i j).Perm t := by
  unfold reverseSegment
  have hkey : t.take i ++ (t.take (j+1)).drop i ++ t.drop (j+1) = t := by
    conv_lhs =>
      rw [show t.take i = (t.take (j+1)).take i by
            rw [List.take_take, Nat.min_eq_left h]]
    rw [List.take_append_drop, List.take_append_drop]
  have hperm : (t.take i ++ ((t.take (j+1)).drop i).reverse ++ t.drop (j+1)).Perm
      (t.take i ++ (t.take (j+1)).drop i ++ t.drop (j+1)) :=
    ((List.reverse_perm _).append_left (t.take i)).append (List.Perm.refl _)
  rw [hkey] at hperm
  exact hperm

/-- One (i, j) 2-opt step permutes the tour. -/
theorem twoOptStep_fst_perm (d : Nat → Nat → ℚ) (n : Nat) (t : List Nat) (i j : Nat)
    (h : i ≤ j + 1) : (twoOptStep d n t i j).1.Perm t := by
  unfold twoOptStep
  by_cases hc : d (t.getD (i-1) 0) (t.getD j 0) + d (t.getD i 0) (t.getD ((j+1) % n) 0) <
      d (t.getD (i-1) 0) (t.getD i 0) + d (t.getD j 0) (t.getD ((j+1) % n) 0)
  · rw [if_pos hc]
    exact reverseSegment_perm t i j h
  · rw [if_neg hc]

/-- One full 2-opt pass permutes the tour. -/
theorem twoOptPass_fst_perm (d : Nat → Nat → ℚ) (n : Nat) (t0 : List Nat) :
    (twoOptPass d n t0).1.Perm t0 := by
  unfold twoOptPass
  refine @List.foldlRecOn _ _ (fun st : List Nat × Bool => st.1.Perm t0) _ _ _ (List.Perm.refl t0) ?_
  intro st hst i hi
  refine @List.foldlRecOn _ _ (fun st : List Nat × Bool => st.1.Perm t0) _ _ _ hst ?_
  intro st2 hst2 j hj
  have hij : i ≤ j + 1 := by
    have := (List.mem_range'_1.mp hj).1
    omega
  exact (twoOptStep_fst_perm d n st2.1 i j hij).trans hst2

/-- The outer 2-opt iteration permutes the tour. -/
theorem twoOptLoop_perm (d : Nat → Nat → ℚ) (n : Nat) :
    ∀ fuel t, (twoOptLoop d n fuel t).Perm t := by
  intro fuel
  induction fuel with
  | zero => intro t; exact List.Perm.refl t
  | succ fuel ih =>
    intro t
    simp only [twoOptLoop]
    by_cases h : (twoOptPass d n t).2
    · rw [if_pos h]
      exact (ih _).trans (twoOptPass_fst_perm d n t)
    · rw [if_neg h]
      exact twoOptPass_fst_perm d n t

/-- `two_opt_improve` permutes its input tour. -/
theorem two_opt_improve_perm (d : Nat → Nat → ℚ) (t : List Nat) (it : Nat) :
    (two_opt_improve d t it).Perm t :=
  twoOptLoop_perm d t.length it t

/-- C3: for every distance oracle (hence every list of centroids), every
n >= 1 and every start index in 0..n-1, `optimize_tsp` succeeds and its tour
(greedy construction followed by 2-opt improvement) is a permutation of the
indices 0..n-1: every index appears exactly once. -/
theorem optimize_tsp_perm (d : Nat → Nat → ℚ) (n start : Nat) (hn : 1 ≤ n)
    (hs : start < n) :
    ∃ p, optimize_tsp d n start = some p ∧ p.1.Perm (List.range n) := by
  obtain ⟨t, ht, hperm⟩ := greedy_tsp_perm d n start hs
  refine ⟨(two_opt_improve d t 1000, total_distance d (two_opt_improve d t 1000)), ?_, ?_⟩
  · rw [optimize_tsp, ht]
    rfl
  · exact (two_opt_improve_perm d t 1000).trans hperm

/-- Witness for C3 at a concrete oracle, n = 3, start = 0. -/
theorem optimize_tsp_perm_witness :
    1 ≤ 3 ∧ 0 < 3 ∧
    ∃ p, optimize_tsp (fun i j => |(i : ℚ) - j|) 3 0 = some p ∧
      p.1.Perm (List.range 3) :=
  ⟨by decide, by decide, optimize_tsp_perm (fun i j => |(i : ℚ) - j|) 3 0 (by decide) (by decide)⟩

/-- C5 counterexample: on an empty centroid list `optimize_tsp` does not
return the trivial empty tour -- the greedy phase's
`unvisited.remove(start_index)` raises KeyError on the empty set, embedded as
`none`, so the empty-input call fails rather than returning normally. -/
theorem optimize_tsp_empty_fails :
    optimize_tsp (fun _ _ => (0 : ℚ)) 0 0 = none := rfl

/-- C5 amended: on 1 centroid `optimize_tsp` returns the single-index tour
[0] with total distance 0 (for any distance oracle with zero self-distance,
as Euclidean distance is), and the 2-opt pass performs no reversal; on 0
centroids the greedy phase fails (KeyError at `unvisited.remove`), so the
empty-input call fails rather than returning normally. -/
theorem optimize_tsp_small (d : Nat → Nat → ℚ) (h0 : d 0 0 = 0) :
    optimize_tsp d 1 0 = some ([0], 0) ∧
    twoOptPass d 1 [0] = ([0], false) ∧
    optimize_tsp d 0 0 = none := by
  refine ⟨?_, rfl, rfl⟩
  have h1 : optimize_tsp d 1 0 = some ([0], total_distance d [0]) := rfl
  rw [h1]
  have h2 : total_distance d [0] = d 0 0 := by
    simp [total_distance]
  rw [h2, h0]

/-- Witness for C5's amended statement at the all-zero oracle. -/
theorem optimize_tsp_small_witness :
    (fun _ _ => (0 : ℚ)) 0 0 = 0 ∧
    (optimize_tsp (fun _ _ => (0 : ℚ)) 1 0 = some ([0], 0) ∧
     twoOptPass (fun _ _ => (0 : ℚ)) 1 [0] = ([0], false) ∧
     optimize_tsp (fun _ _ => (0 : ℚ)) 0 0 = none) :=
  ⟨rfl, optimize_tsp_small (fun _ _ => (0 : ℚ)) rfl⟩

/-! ### Tour Optimizer: 2-opt does not increase the closed-loop distance -/

theorem getLastD_congr {α : Type} (l : List α) (hl : l ≠ []) (x y : α) :
    l.getLastD x = l.getLastD y := by
  cases l with
  | nil => simp at hl
  | cons a t =>
    cases t with
    | nil => rfl
    | cons b t' => simp only [List.getLastD_cons]

theorem pathD_eq_sum (d : Nat → Nat → ℚ) (l : List Nat) :
    pathD d l = ((List.range (l.length - 1)).map
      (fun i => d (l.getD i 0) (l.getD (i+1) 0))).sum := by
  induction l with
  | nil => simp [pathD]
  | cons a t ih =>
    cases t with
    | nil => simp [pathD]
    | cons b t' =>
      rw [show pathD d (a :: b :: t') = d a b + pathD d (b :: t') from rfl, ih]
      rw [show (a :: b :: t').length - 1 = ((b :: t').length - 1) + 1 by simp]
      rw [List.range_succ_eq_map, List.map_cons, List.sum_cons, List.map_map]
      refine congrArg₂ (· + ·) ?_ ?_
      · simp
      · refine congrArg List.sum ?_
        apply List.map_congr_left
        intro i _
        simp [Function.comp, List.getD_cons_succ]

theorem pathD_append (d : Nat → Nat → ℚ) (xs ys : List Nat)
    (hx : xs ≠ []) (hy : ys ≠ []) :
    pathD d (xs ++ ys) = pathD d xs + d (xs.getLastD 0) (ys.headD 0) + pathD d ys := by
  induction xs with
  | nil => simp at hx
  | cons a xs' ih =>
    cases xs' with
    | nil =>
      cases ys with
      | nil => simp at hy
      | cons b ys' =>
        show pathD d (a :: b :: ys') = pathD d [a] + d a b + pathD d (b :: ys')
        rw [show pathD d (a :: b :: ys') = d a b + pathD d (b :: ys') from rfl]
        rw [show pathD d [a] = 0 from rfl]
        ring
    | cons a2 xs'' =>
      have ih2 := ih (by simp)
      rw [show ((a :: a2 :: xs'') ++ ys) = a :: ((a2 :: xs'') ++ ys) from rfl]
      rw [show ((a2 :: xs'') ++ ys) = a2 :: (xs'' ++ ys) from rfl]
      rw [show pathD d (a :: a2 :: (xs'' ++ ys)) =
            d a a2 + pathD d (a2 :: (xs'' ++ ys)) from rfl]
      rw [show (a2 :: (xs'' ++ ys)) = ((a2 :: xs'') ++ ys) from rfl, ih2]
      rw [show pathD d (a :: a2 :: xs'') = d a a2 + pathD d (a2 :: xs'') from rfl]
      have hlast : (a :: a2 :: xs'').getLastD 0 = (a2 :: xs'').getLastD 0 := by
        rw [List.getLastD_cons]
        exact getLastD_congr _ (by simp) a 0
      rw [hlast]
      ring

theorem pathD_reverse (d : Nat → Nat → ℚ) (hsym : ∀ a b, d a b = d b a)
    (l : List Nat) : pathD d l.reverse = pathD d l := by
  induction l with
  | nil => simp
  | cons a t ih =>
    cases t with
    | nil => simp
    | cons b t' =>
      rw [List.reverse_cons]
      rw [pathD_append d _ [a] (by simp) (by simp)]
      rw [ih]
      have hrev : ((b :: t').reverse).getLastD 0 = b := by
        simp [List.getLastD_eq_getLast?, List.getLast?_reverse]
      rw [hrev]
      rw [show pathD d (a :: b :: t') = d a b + pathD d (b :: t') from rfl]
      rw [show pathD d [a] = 0 from rfl]
      rw [show ([a] : List Nat).headD 0 = a from rfl]
      rw [hsym b a]
      ring

theorem headD_eq_getD {α : Type} (l : List α) (x : α) : l.headD x = l.getD 0 x := by
  cases l <;> rfl

theorem getLastD_eq_getD {α : Type} (l : List α) (x : α) (hl : l ≠ []) :
    l.getLastD x = l.getD (l.length - 1) x := by
  induction l with
  | nil => simp at hl
  | cons a t ih =>
    cases t with
    | nil => rfl
    | cons b t' =>
      rw [List.getLastD_cons, getLastD_congr _ (by simp) a x, ih (by simp)]
      have hlen : (a :: b :: t').length - 1 = ((b :: t').length - 1) + 1 := by simp
      rw [hlen, List.getD_cons_succ]

theorem getD_take {α : Type} (t : List α) (k m : Nat) (x : α) (h : m < k) :
    (t.take k).getD m x = t.getD m x := by
  simp [List.getD_eq_getElem?_getD, List.getElem?_take, h]

theorem getD_drop {α : Type} (t : List α) (k m : Nat) (x : α) :
    (t.drop k).getD m x = t.getD (k + m) x := by
  simp [List.getD_eq_getElem?_getD, List.getElem?_drop]

/-- The source's `% n`-indexed closed-loop sum equals `cyclicD`. -/
theorem total_distance_eq_cyclicD (d : Nat → Nat → ℚ) (t : List Nat) :
    total_distance d t = cyclicD d t := by
  cases t with
  | nil => rfl
  | cons a t' =>
    rw [show cyclicD d (a :: t') = pathD d ((a :: t') ++ [a]) from rfl]
    rw [pathD_eq_sum, total_distance]
    have hlen : ((a :: t') ++ [a]).length - 1 = (a :: t').length := by simp
    rw [hlen]
    refine congrArg List.sum ?_
    apply List.map_congr_left
    intro i hi
    have hi' : i < (a :: t').length := List.mem_range.mp hi
    rw [List.getD_append _ _ _ _ hi']
    by_cases hc : i + 1 < (a :: t').length
    · rw [List.getD_append _ _ _ _ hc, Nat.mod_eq_of_lt hc]
    · have hie : i + 1 = (a :: t').length := by omega
      have h3 : (i+1) % (a :: t').length = 0 := by rw [hie]; exact Nat.mod_self _
      have h2 : ((a :: t') ++ [a]).getD (i+1) 0 = a := by
        rw [List.getD_append_right _ _ _ _ (by omega), hie]
        simp
      rw [h2, h3, List.getD_cons_zero]

/-- Reversing the middle block changes the closed-loop length only through
the two boundary edges. -/
theorem cyclicD_reverseMiddle (d : Nat → Nat → ℚ) (hsym : ∀ a b, d a b = d b a)
    (P M S : List Nat) (hP : P ≠ []) (hM : M ≠ []) :
    cyclicD d (P ++ M.reverse ++ S) +
      (d (P.getLastD 0) (M.headD 0) + d (M.getLastD 0) ((S ++ [P.headD 0]).headD 0)) =
    cyclicD d (P ++ M ++ S) +
      (d (P.getLastD 0) (M.getLastD 0) + d (M.headD 0) ((S ++ [P.headD 0]).headD 0)) := by
  obtain ⟨p, P', rfl⟩ := List.exists_cons_of_ne_nil hP
  have hWne : (S ++ [(p :: P').headD 0]) ≠ [] := by simp
  have hcyc : ∀ X : List Nat, X ≠ [] →
      cyclicD d ((p :: P') ++ X ++ S) =
        pathD d (p :: P') + d ((p :: P').getLastD 0) (X.headD 0) +
          (pathD d X + d (X.getLastD 0) ((S ++ [(p :: P').headD 0]).headD 0) +
            pathD d (S ++ [(p :: P').headD 0])) := by
    intro X hX
    have h1 : (p :: P') ++ X ++ S = p :: (P' ++ (X ++ (S))) := by simp
    have h2 : cyclicD d ((p :: P') ++ X ++ S) =
        pathD d ((p :: P') ++ (X ++ (S ++ [p]))) := by
      rw [h1]
      rw [show cyclicD d (p :: (P' ++ (X ++ S))) =
            pathD d ((p :: (P' ++ (X ++ S))) ++ [p]) from rfl]
      simp [List.append_assoc]
    rw [h2]
    rw [pathD_append d (p :: P') (X ++ (S ++ [p])) (by simp) (by simp)]
    rw [pathD_append d X (S ++ [p]) hX (by simp)]
    have hhd : (X ++ (S ++ [p])).headD 0 = X.headD 0 := by
      obtain ⟨x0, X', rfl⟩ := List.exists_cons_of_ne_nil hX
      simp
    have hp : (S ++ [(p :: P').headD 0]) = S ++ [p] := by simp
    rw [hhd, hp]
  rw [hcyc M hM, hcyc M.reverse (by simp [hM])]
  rw [pathD_reverse d hsym]
  have hh : (M.reverse).headD 0 = M.getLastD 0 := by
    rw [headD_eq_getD, getLastD_eq_getD _ _ hM]
    rw [List.getD_eq_getElem?_getD, List.getD_eq_getElem?_getD]
    rw [List.getElem?_reverse (List.length_pos.mpr hM)]
    simp
  have hl : (M.reverse).getLastD 0 = M.headD 0 := by
    rw [List.getLastD_eq_getLast?, List.getLast?_reverse, headD_eq_getD]
    cases M with
    | nil => simp at hM
    | cons m M' => simp
  rw [hh, hl]
  ring

theorem twoOptStep_total_le (d : Nat → Nat → ℚ) (hsym : ∀ a b, d a b = d b a)
    (n : Nat) (t : List Nat) (ht : t.length = n) (i j : Nat)
    (hi : 1 ≤ i) (hij : i < j) (hj : j ≤ n - 1) :
    total_distance d (twoOptStep d n t i j).1 ≤ total_distance d t := by
  have hn : 3 ≤ n := by omega
  have hstep : twoOptStep d n t i j =
      if d (t.getD (i-1) 0) (t.getD j 0) + d (t.getD i 0) (t.getD ((j+1) % n) 0) <
         d (t.getD (i-1) 0) (t.getD i 0) + d (t.getD j 0) (t.getD ((j+1) % n) 0)
      then (reverseSegment t i j, true) else (t, false) := rfl
  rw [hstep]
  by_cases hc : d (t.getD (i-1) 0) (t.getD j 0) + d (t.getD i 0) (t.getD ((j+1) % n) 0) <
      d (t.getD (i-1) 0) (t.getD i 0) + d (t.getD j 0) (t.getD ((j+1) % n) 0)
  · rw [if_pos hc]
    show total_distance d (reverseSegment t i j) ≤ total_distance d t
    set P := t.take i with hPdef
    set M := (t.take (j+1)).drop i with hMdef
    set S := t.drop (j+1) with hSdef
    have hjn : j + 1 ≤ n := by omega
    have hPlen : P.length = i := by
      rw [hPdef, List.length_take, ht, Nat.min_eq_left (by omega)]
    have hAlen : (t.take (j+1)).length = j + 1 := by
      rw [List.length_take, ht, Nat.min_eq_left hjn]
    have hMlen : M.length = j + 1 - i := by
      rw [hMdef, List.length_drop, hAlen]
    have hPne : P ≠ [] := by
      apply List.length_pos.mp
      rw [hPlen]
      omega
    have hMne : M ≠ [] := by
      apply List.length_pos.mp
      rw [hMlen]
      omega
    have hsplit : P ++ M ++ S = t := by
      rw [hPdef, hMdef, hSdef]
      conv_lhs =>
        rw [show t.take i = (t.take (j+1)).take i by
              rw [List.take_take, Nat.min_eq_left (by omega)]]
      rw [List.take_append_drop, List.take_append_drop]
    have hrev : reverseSegment t i j = P ++ M.reverse ++ S := rfl
    have hPl : P.getLastD 0 = t.getD (i-1) 0 := by
      rw [getLastD_eq_getD _ _ hPne, hPlen, hPdef]
      exact getD_take t i (i-1) 0 (by omega)
    have hMh : M.headD 0 = t.getD i 0 := by
      rw [headD_eq_getD, hMdef, getD_drop, Nat.add_zero]
      exact getD_take t (j+1) i 0 (by omega)
    have hMl : M.getLastD 0 = t.getD j 0 := by
      rw [getLastD_eq_getD _ _ hMne, hMlen, hMdef, getD_drop]
      rw [show i + (j + 1 - i - 1) = j by omega]
      exact getD_take t (j+1) j 0 (by omega)
    have hW : (S ++ [P.headD 0]).headD 0 = t.getD ((j+1) % n) 0 := by
      by_cases hcS : j + 1 < n
      · have hSne : S ≠ [] := by
          apply List.length_pos.mp
          rw [hSdef, List.length_drop, ht]
          omega
        obtain ⟨s0, S', hS0⟩ := List.exists_cons_of_ne_nil hSne
        have hhd : S.headD 0 = t.getD (j+1) 0 := by
          rw [headD_eq_getD, hSdef, getD_drop, Nat.add_zero]
        rw [hS0, List.cons_append, List.headD_cons]
        rw [hS0, List.headD_cons] at hhd
        rw [hhd, Nat.mod_eq_of_lt hcS]
      · have hje : j + 1 = n := by omega
        have hSnil : S = [] := by
          rw [hSdef]
          apply List.drop_eq_nil_of_le
          omega
        rw [hSnil, List.nil_append, List.headD_cons]
        rw [hje, Nat.mod_self]
        rw [headD_eq_getD, hPdef, getD_take t i 0 0 (by omega)]
    have hmain := cyclicD_reverseMiddle d hsym P M S hPne hMne
    have e1 : total_distance d (reverseSegment t i j) = cyclicD d (P ++ M.reverse ++ S) := by
      rw [hrev]
      exact total_distance_eq_cyclicD d _
    have e2 : total_distance d t = cyclicD d (P ++ M ++ S) := by
      rw [total_distance_eq_cyclicD, hsplit]
    rw [e1, e2]
    rw [hPl, hMh, hMl, hW] at hmain
    linarith [hmain, hc]
  · rw [if_neg hc]

theorem twoOptPass_invariant (d : Nat → Nat → ℚ) (hsym : ∀ a b, d a b = d b a)
    (n : Nat) (t0 : List Nat) (h0 : t0.length = n) :
    (twoOptPass d n t0).1.length = n ∧
      total_distance d (twoOptPass d n t0).1 ≤ total_distance d t0 := by
  unfold twoOptPass
  refine @List.foldlRecOn _ _
    (fun st : List Nat × Bool =>
      st.1.length = n ∧ total_distance d st.1 ≤ total_distance d t0)
    _ _ _ ⟨h0, le_refl _⟩ ?_
  intro st hst i hi
  refine @List.foldlRecOn _ _
    (fun st : List Nat × Bool =>
      st.1.length = n ∧ total_distance d st.1 ≤ total_distance d t0)
    _ _ _ hst ?_
  intro st2 hst2 j hj
  show (twoOptStep d n st2.1 i j).1.length = n ∧
    total_distance d (twoOptStep d n st2.1 i j).1 ≤ total_distance d t0
  have hi' := List.mem_range'_1.mp hi
  have hj' := List.mem_range'_1.mp hj
  have hperm := twoOptStep_fst_perm d n st2.1 i j (by omega)
  constructor
  · rw [hperm.length_eq]
    exact hst2.1
  · exact le_trans
      (twoOptStep_total_le d hsym n st2.1 hst2.1 i j (by omega) (by omega) (by omega))
      hst2.2

theorem twoOptLoop_total_le (d : Nat → Nat → ℚ) (hsym : ∀ a b, d a b = d b a)
    (n : Nat) : ∀ fuel t, t.length = n →
      total_distance d (twoOptLoop d n fuel t) ≤ total_distance d t := by
  intro fuel
  induction fuel with
  | zero => intro t _; exact le_refl _
  | succ fuel ih =>
    intro t ht
    simp only [twoOptLoop]
    have hpass := twoOptPass_invariant d hsym n t ht
    by_cases h : (twoOptPass d n t).2
    · rw [if_pos h]
      exact le_trans (ih _ hpass.1) hpass.2
    · rw [if_neg h]
      exact hpass.2

/-- 2-opt improvement never increases the closed-loop tour length. -/
theorem two_opt_improve_total_le (d : Nat → Nat → ℚ) (hsym : ∀ a b, d a b = d b a)
    (t : List Nat) (it : Nat) :
    total_distance d (two_opt_improve d t it) ≤ total_distance d t :=
  twoOptLoop_total_le d hsym t.length it t rfl

/-- C4: for every symmetric distance oracle (hence every list of centroids)
and every valid start index, greedy construction succeeds, `optimize_tsp`
returns the 2-opt improved greedy tour together with its closed-loop total
distance, and that closed-loop total distance (cyclic consecutive-point sum,
wrapping last to first) is less than or equal to the closed-loop total
distance of the greedy-only tour. -/
theorem two_opt_le_greedy (d : Nat → Nat → ℚ) (hsym : ∀ a b, d a b = d b a)
    (n start : Nat) (hs : start < n) :
    ∃ t0, greedy_tsp d n start = some t0 ∧
      optimize_tsp d n start =
        some (two_opt_improve d t0 1000,
          total_distance d (two_opt_improve d t0 1000)) ∧
      total_distance d (two_opt_improve d t0 1000) ≤ total_distance d t0 := by
  obtain ⟨t0, ht, _⟩ := greedy_tsp_perm d n start hs
  refine ⟨t0, ht, ?_, two_opt_improve_total_le d hsym t0 1000⟩
  rw [optimize_tsp, ht]
  rfl

/-- Witness for C4 at the symmetric oracle |i - j| on 4 points, start 0. -/
theorem two_opt_le_greedy_witness :
    (∀ a b : Nat, |(a : ℚ) - b| = |(b : ℚ) - a|) ∧ (0 : Nat) < 4 ∧
    ∃ t0, greedy_tsp (fun a b => |(a : ℚ) - b|) 4 0 = some t0 ∧
      optimize_tsp (fun a b => |(a : ℚ) - b|) 4 0 =
        some (two_opt_improve (fun a b => |(a : ℚ) - b|) t0 1000,
          total_distance (fun a b => |(a : ℚ) - b|)
            (two_opt_improve (fun a b => |(a : ℚ) - b|) t0 1000)) ∧
      total_distance (fun a b => |(a : ℚ) - b|)
          (two_opt_improve (fun a b => |(a : ℚ) - b|) t0 1000) ≤
        total_distance (fun a b => |(a : ℚ) - b|) t0 :=
  ⟨fun a b => abs_sub_comm _ _, by decide,
    two_opt_le_greedy (fun a b => |(a : ℚ) - b|) (fun a b => abs_sub_comm _ _) 4 0
      (by decide)⟩

/-! ### Shape Simplifier (RDP) -/

/-- If the argmax cross product passes the epsilon test, the split index is
interior: at least 1 and at most length - 2. -/
theorem argmax_cross_interior (points : List (ℚ × ℚ)) (eps : ℚ)
    (h : eps ^ 2 * normSq (points.headD (0, 0)) (points.getLastD (0, 0)) <
      ((points.map (cross2 (points.headD (0, 0)) (points.getLastD (0, 0)))).getD
        (argmaxAbs (points.map (cross2 (points.headD (0, 0)) (points.getLastD (0, 0))))) 0) ^ 2) :
    1 ≤ argmaxAbs (points.map (cross2 (points.headD (0, 0)) (points.getLastD (0, 0)))) ∧
    argmaxAbs (points.map (cross2 (points.headD (0, 0)) (points.getLastD (0, 0)))) + 1 <
      points.length := by
  have hc : (points.map (cross2 (points.headD (0, 0)) (points.getLastD (0, 0)))).getD
      (argmaxAbs (points.map (cross2 (points.headD (0, 0)) (points.getLastD (0, 0))))) 0 ≠ 0 := by
    intro hz
    rw [hz] at h
    have h1 : (0:ℚ) ≤ eps ^ 2 * normSq (points.headD (0, 0)) (points.getLastD (0, 0)) :=
      mul_nonneg (sq_nonneg _) (add_nonneg (sq_nonneg _) (sq_nonneg _))
    simp only [ne_eq, zero_pow, OfNat.ofNat_ne_zero, not_false_eq_true] at h
    exact absurd h (not_lt.mpr h1)
  set m := argmaxAbs (points.map (cross2 (points.headD (0, 0)) (points.getLastD (0, 0)))) with hm
  have hmlt : m < points.length := by
    by_contra hge
    exact hc (List.getD_eq_default _ _ (by simpa using not_lt.mp hge))
  have hm0 : m ≠ 0 := by
    intro h0
    apply hc
    rw [h0]
    have hne : points ≠ [] := by
      intro he; rw [he] at hmlt; simp at hmlt
    obtain ⟨a, as, rfl⟩ := List.exists_cons_of_ne_nil hne
    simp only [List.map_cons, List.getD_cons_zero, List.headD_cons]
    simp only [cross2]
    ring
  have hmlast : m ≠ points.length - 1 := by
    intro hlast
    apply hc
    rw [hlast]
    have hlen : points.length - 1 <
        (points.map (cross2 (points.headD (0, 0)) (points.getLastD (0, 0)))).length := by
      simp only [List.length_map]
      omega
    rw [List.getD_eq_getElem _ _ hlen]
    have hlen2 : points.length - 1 < points.length := by omega
    simp only [List.getElem_map]
    have hlp : points[points.length - 1] = points.getLastD (0, 0) := by
      rw [List.getLastD_eq_getLast?, List.getLast?_eq_getElem?]
      simp [List.getElem?_eq_getElem hlen2]
    rw [hlp]
    simp only [cross2]
    ring
  exact ⟨by omega, by omega⟩

/-- The head survives `take k` for `1 ≤ k`. -/
theorem headD_take {α : Type} (l : List α) (k : Nat) (x : α) (hk : 1 ≤ k) :
    (l.take k).headD x = l.headD x := by
  cases l with
  | nil => simp
  | cons a t =>
    cases k with
    | zero => omega
    | succ k' => rfl

/-- A sublist of `a :: r` avoiding `a` is a sublist of `r`. -/
theorem sublist_of_cons_of_not_mem {α : Type} {l r : List α} {a : α}
    (h : l.Sublist (a :: r)) (hn : a ∉ l) : l.Sublist r := by
  rcases List.sublist_cons_iff.mp h with h1 | ⟨r', hr', _⟩
  · exact h1
  · exact absurd (hr' ▸ List.mem_cons_self a r') hn

/-- The first and last element form a sublist of any list with >= 2 points. -/
theorem pair_sublist {α : Type} (l : List α) (x : α) (h2 : 2 ≤ l.length) :
    ([l.headD x, l.getLastD x] : List α).Sublist l := by
  cases l with
  | nil => simp at h2
  | cons a t =>
    have htne : t ≠ [] := by
      intro he
      rw [he] at h2
      simp at h2
    rw [List.headD_cons, List.getLastD_cons]
    refine List.cons_sublist_cons.mpr ?_
    rw [List.singleton_sublist]
    rw [getLastD_eq_getD _ _ htne]
    rw [List.getD_eq_getElem _ _ (by
      have := List.length_pos.mpr htne
      omega)]
    exact List.getElem_mem _

/-- Main inductive bundle for `rdp_algorithm`: the output is a sublist of the
input, has between 2 and `length` elements, and contains the input's first
and last point values. -/
theorem rdp_bundle : ∀ n : Nat, ∀ points : List (ℚ × ℚ), points.length ≤ n →
    2 ≤ points.length → ∀ eps : ℚ,
    (rdp_algorithm points eps).Sublist points ∧
    2 ≤ (rdp_algorithm points eps).length ∧
    (rdp_algorithm points eps).length ≤ points.length ∧
    points.headD (0, 0) ∈ rdp_algorithm points eps ∧
    points.getLastD (0, 0) ∈ rdp_algorithm points eps := by
  intro n
  induction n with
  | zero =>
    intro points h h2 eps
    omega
  | succ n ih =>
    intro points hlen h2 eps
    rw [rdp_algorithm]
    dsimp only
    split
    case isFalse hcond =>
      refine ⟨pair_sublist points (0, 0) h2, by simp, by simpa using h2, by simp, by simp⟩
    case isTrue hcond =>
      obtain ⟨hm1, hm2⟩ := argmax_cross_interior points eps hcond
      set m := argmaxAbs (points.map (cross2 (points.headD (0, 0)) (points.getLastD (0, 0)))) with hmdef
      have hpne : points ≠ [] := by
        intro he
        rw [he] at h2
        simp at h2
      have hTlen : (points.take (m+1)).length = m + 1 := by
        rw [List.length_take, Nat.min_eq_left (by omega)]
      have hDlen : (points.drop m).length = points.length - m := List.length_drop _ _
      have ihL := ih (points.take (m+1)) (by omega) (by omega) eps
      have ihR := ih (points.drop m) (by omega) (by omega) eps
      set L := rdp_algorithm (points.take (m+1)) eps with hLdef
      set R := rdp_algorithm (points.drop m) eps with hRdef
      have hTne : points.take (m+1) ≠ [] := by
        apply List.length_pos.mp
        omega
      have hDne : points.drop m ≠ [] := by
        apply List.length_pos.mp
        omega
      -- the shared split value
      have hTlast : (points.take (m+1)).getLastD (0, 0) = points.getD m (0, 0) := by
        rw [getLastD_eq_getD _ _ hTne, hTlen]
        exact getD_take points (m+1) m (0, 0) (by omega)
      have hDhead : (points.drop m).headD (0, 0) = points.getD m (0, 0) := by
        rw [headD_eq_getD, getD_drop, Nat.add_zero]
      have hThead : (points.take (m+1)).headD (0, 0) = points.headD (0, 0) :=
        headD_take points (m+1) (0, 0) (by omega)
      have hDlast : (points.drop m).getLastD (0, 0) = points.getLastD (0, 0) := by
        rw [getLastD_eq_getD _ _ hDne, getD_drop, hDlen]
        rw [show m + (points.length - m - 1) = points.length - 1 by omega]
        rw [getLastD_eq_getD _ _ hpne]
      have hvmL : points.getD m (0, 0) ∈ L := hTlast ▸ ihL.2.2.2.2
      have hvmR : points.getD m (0, 0) ∈ R := hDhead ▸ ihR.2.2.2.1
      have hfsub : (R.filter (fun p => ¬ p ∈ L)).Sublist (points.drop (m+1)) := by
        have h1 : (R.filter (fun p => ¬ p ∈ L)).Sublist (points.drop m) :=
          (List.filter_sublist R).trans ihR.1
        have hdropm : points.drop m = points.getD m (0, 0) :: points.drop (m+1) := by
          rw [List.drop_eq_getElem_cons (show m < points.length by omega)]
          rw [List.getD_eq_getElem _ _ (show m < points.length by omega)]
        rw [hdropm] at h1
        refine sublist_of_cons_of_not_mem h1 ?_
        intro hmem
        have h2m := (List.mem_filter.mp hmem).2
        exact of_decide_eq_true h2m hvmL
      constructor
      · -- sublist
        have hLsub : L.Sublist (points.take (m+1)) := ihL.1
        have := hLsub.append hfsub
        rw [List.take_append_drop] at this
        exact this
      refine ⟨?_, ?_, ?_, ?_⟩
      · -- length >= 2
        rw [List.length_append]
        have := ihL.2.1
        omega
      · -- length <= input
        rw [List.length_append]
        have hLle : L.length ≤ m + 1 := hTlen ▸ ihL.2.2.1
        have hflt : (R.filter (fun p => ¬ p ∈ L)).length < R.length := by
          rw [List.length_filter_lt_length_iff_exists]
          refine ⟨points.getD m (0, 0), hvmR, ?_⟩
          exact fun hf => (of_decide_eq_true hf) hvmL
        have hRle : R.length ≤ points.length - m := hDlen ▸ ihR.2.2.1
        omega
      · -- head membership
        apply List.mem_append_left
        exact hThead ▸ ihL.2.2.2.1
      · -- last membership
        have hlastR : points.getLastD (0, 0) ∈ R := hDlast ▸ ihR.2.2.2.2
        by_cases hin : points.getLastD (0, 0) ∈ L
        · exact List.mem_append_left _ hin
        · refine List.mem_append_right _ ?_
          rw [List.mem_filter]
          exact ⟨hlastR, decide_eq_true hin⟩

/-- A 2-point shape is returned unchanged (both cross products vanish). -/
theorem rdp_two (p q : ℚ × ℚ) (eps : ℚ) : rdp_algorithm [p, q] eps = [p, q] := by
  have hc0 : cross2 p q p = 0 := by unfold cross2; ring
  have hc1 : cross2 p q q = 0 := by unfold cross2; ring
  have hmap : ([p, q] : List (ℚ × ℚ)).map (cross2 p q) = [0, 0] := by
    simp [hc0, hc1]
  have hkey : ∀ m : Nat, ((([p, q] : List (ℚ × ℚ)).map (cross2 p q)).getD m 0) = 0 := by
    intro m
    rw [hmap]
    cases m with
    | zero => rfl
    | succ m1 =>
      cases m1 with
      | zero => rfl
      | succ m2 => rfl
  rw [rdp_algorithm]
  dsimp only
  split
  case isTrue h =>
    exfalso
    have h0 : ((([p, q] : List (ℚ × ℚ)).map
        (cross2 (([p, q] : List (ℚ × ℚ)).headD (0, 0))
          (([p, q] : List (ℚ × ℚ)).getLastD (0, 0)))).getD
        (argmaxAbs (([p, q] : List (ℚ × ℚ)).map
          (cross2 (([p, q] : List (ℚ × ℚ)).headD (0, 0))
            (([p, q] : List (ℚ × ℚ)).getLastD (0, 0))))) 0) = 0 := hkey _
    rw [h0] at h
    have hnn : (0:ℚ) ≤ eps ^ 2 *
        normSq (([p, q] : List (ℚ × ℚ)).headD (0, 0))
          (([p, q] : List (ℚ × ℚ)).getLastD (0, 0)) :=
      mul_nonneg (sq_nonneg _) (add_nonneg (sq_nonneg _) (sq_nonneg _))
    simp only [ne_eq, zero_pow, OfNat.ofNat_ne_zero, not_false_eq_true] at h
    exact absurd h (not_lt.mpr hnn)
  case isFalse h => rfl

/-- The claim's concrete collinear scenario. -/
theorem rdp_scenario :
    rdp_algorithm [((0:ℚ), (0:ℚ)), (1, 0), (2, 0), (3, 0)] (1/2) = [(0, 0), (3, 0)] := by
  rw [rdp_algorithm]
  dsimp only
  split
  case isTrue h =>
    exfalso
    norm_num [cross2, normSq, argmaxAbs, argmaxAbsAux, List.getD] at h
  case isFalse h => rfl

/-- C7: for every epsilon >= 0 and every input shape with at least 2 points,
the output of the RDP simplifier has length >= 2, length <= the input length,
and is an order-preserving subsequence (sublist) of the input points; a
2-point input is returned unchanged, and the collinear shape
(0,0),(1,0),(2,0),(3,0) with epsilon = 1/2 simplifies to exactly
[(0,0),(3,0)]. -/
theorem rdp_algorithm_spec (points : List (ℚ × ℚ)) (eps : ℚ) (heps : 0 ≤ eps)
    (h2 : 2 ≤ points.length) :
    2 ≤ (rdp_algorithm points eps).length ∧
    (rdp_algorithm points eps).length ≤ points.length ∧
    (rdp_algorithm points eps).Sublist points ∧
    (∀ p q : ℚ × ℚ, rdp_algorithm [p, q] eps = [p, q]) ∧
    rdp_algorithm [((0:ℚ), (0:ℚ)), (1, 0), (2, 0), (3, 0)] (1/2) = [(0, 0), (3, 0)] := by
  obtain ⟨hsub, hge, hle, _, _⟩ := rdp_bundle points.length points (le_refl _) h2 eps
  exact ⟨hge, hle, hsub, fun p q => rdp_two p q eps, rdp_scenario⟩

/-- Witness for C7 at the scenario input. -/
theorem rdp_algorithm_spec_witness :
    (0:ℚ) ≤ 1/2 ∧
    2 ≤ ([((0:ℚ), (0:ℚ)), (1, 0), (2, 0), (3, 0)] : List (ℚ × ℚ)).length ∧
    (2 ≤ (rdp_algorithm [((0:ℚ), (0:ℚ)), (1, 0), (2, 0), (3, 0)] (1/2)).length ∧
     (rdp_algorithm [((0:ℚ), (0:ℚ)), (1, 0), (2, 0), (3, 0)] (1/2)).length ≤
       ([((0:ℚ), (0:ℚ)), (1, 0), (2, 0), (3, 0)] : List (ℚ × ℚ)).length ∧
     (rdp_algorithm [((0:ℚ), (0:ℚ)), (1, 0), (2, 0), (3, 0)] (1/2)).Sublist
       [((0:ℚ), (0:ℚ)), (1, 0), (2, 0), (3, 0)] ∧
     (∀ p q : ℚ × ℚ, rdp_algorithm [p, q] (1/2) = [p, q]) ∧
     rdp_algorithm [((0:ℚ), (0:ℚ)), (1, 0), (2, 0), (3, 0)] (1/2) = [(0, 0), (3, 0)]) :=
  ⟨by norm_num, by decide,
    rdp_algorithm_spec [((0:ℚ), (0:ℚ)), (1, 0), (2, 0), (3, 0)] (1/2) (by norm_num) (by decide)⟩

/-! ### Blank Distributor and Assignment Orchestrator -/

/-- The rejection loop only returns values below its bound. -/
theorem randbelowLoop_lt (n k : Nat) :
    ∀ fuel st r st', randbelowLoop n k st fuel = some (r, st') → r < n := by
  intro fuel
  induction fuel with
  | zero => intro st r st' h; simp [randbelowLoop] at h
  | succ fuel ih =>
    intro st r st' h
    simp only [randbelowLoop] at h
    split at h
    · cases h
      assumption
    · exact ih _ r st' h

/-- `_randbelow(n)` only returns values below n. -/
theorem randbelow_lt (n : Nat) (st : MTState) (r : Nat) (st' : MTState)
    (h : randbelow n st = some (r, st')) : r < n :=
  randbelowLoop_lt n (bit_length n) 1000 st r st' h

/-- One pool step is a permutation: moving the last active element into the
drawn slot and extracting the drawn value preserves the active multiset. -/
theorem poolStep_perm (pool : List Nat) (s j : Nat)
    (hs : s < pool.length) (hj : j ≤ s) :
    (((pool.set j (pool.getD s 0)).take s) ++ [pool.getD j 0]).Perm
      (pool.take (s + 1)) := by
  have htake : pool.take (s + 1) = pool.take s ++ [pool.getD s 0] := by
    rw [List.take_succ, List.getD_eq_getElem _ _ hs, List.getElem?_eq_getElem hs]
    rfl
  rcases Nat.lt_or_ge j s with hjs | hjs
  · -- j < s : the drawn slot is strictly inside the active prefix
    have hjlen : j < pool.length := by omega
    have hset : pool.set j (pool.getD s 0) =
        pool.take j ++ pool.getD s 0 :: pool.drop (j+1) := by
      rw [List.set_eq_take_append_cons_drop, if_pos hjlen]
    have htkj : (pool.take j).length = j := by
      rw [List.length_take]
      omega
    have hLtake : (pool.set j (pool.getD s 0)).take s =
        pool.take j ++ pool.getD s 0 :: (pool.drop (j+1)).take (s - j - 1) := by
      rw [hset, List.take_append_eq_append_take, htkj]
      rw [List.take_take, Nat.min_eq_right (by omega)]
      rw [show s - j = (s - j - 1) + 1 by omega]
      rfl
    have hRtake : pool.take s =
        pool.take j ++ pool.getD j 0 :: (pool.drop (j+1)).take (s - j - 1) := by
      have h1 : pool.take s = pool.take j ++ (pool.drop j).take (s - j) := by
        conv_lhs => rw [show s = j + (s - j) by omega]
        exact List.take_add pool j (s - j)
      rw [h1, List.drop_eq_getElem_cons hjlen, List.getD_eq_getElem _ _ hjlen]
      rw [show s - j = (s - j - 1) + 1 by omega]
      rfl
    rw [hLtake, htake, hRtake]
    set P := pool.take j
    set T := (pool.drop (j+1)).take (s - j - 1)
    set v := pool.getD s 0
    set aj := pool.getD j 0
    have h2 : ∀ x y : Nat, ((P ++ x :: T) ++ [y]).Perm (P ++ x :: y :: T) := by
      intro x y
      rw [List.append_assoc]
      refine List.Perm.append_left P ?_
      refine List.Perm.cons x ?_
      simpa using (@List.perm_append_comm Nat T [y])
    refine ((h2 v aj).trans ?_).trans (h2 aj v).symm
    refine List.Perm.append_left P ?_
    exact List.Perm.swap aj v T
  · -- j = s : the drawn slot is the last active element; the write is inert
    have hje : j = s := Nat.le_antisymm hj hjs
    subst hje
    have htk : (pool.set j (pool.getD j 0)).take j = pool.take j := by
      rw [List.set_eq_take_append_cons_drop, if_pos (by omega)]
      rw [List.take_append_eq_append_take, List.length_take,
        Nat.min_eq_left (by omega : j ≤ pool.length)]
      simp [List.take_take]
    rw [htk, htake]

/-- Pool-branch loop invariant: the multiset of still-active pool slots plus
the emitted draws is preserved (up to permutation). -/
theorem samplePoolLoop_spec (n : Nat) :
    ∀ k st pool i acc out st',
      samplePoolLoop n st pool i k acc = some (out, st') →
      pool.length = n → i + k ≤ n →
      ∃ pool' : List Nat, pool'.length = n ∧
        (pool'.take (n - (i + k)) ++ out).Perm (pool.take (n - i) ++ acc) := by
  intro k
  induction k with
  | zero =>
    intro st pool i acc out st' h hlen hik
    simp only [samplePoolLoop] at h
    cases h
    exact ⟨pool, hlen, List.Perm.refl _⟩
  | succ k ih =>
    intro st pool i acc out st' h hlen hik
    simp only [samplePoolLoop] at h
    cases hrb : randbelow (n - i) st with
    | none => rw [hrb] at h; cases h
    | some pr =>
      obtain ⟨j, st1⟩ := pr
      rw [hrb] at h
      simp only at h
      have hjlt : j < n - i := randbelow_lt _ _ _ _ hrb
      obtain ⟨pool', hplen, hperm⟩ :=
        ih st1 (pool.set j (pool.getD (n - i - 1) 0)) (i+1)
          (acc ++ [pool.getD j 0]) out st' h
          (by rw [List.length_set]; exact hlen) (by omega)
      refine ⟨pool', hplen, ?_⟩
      rw [show n - (i + (k+1)) = n - (i + 1 + k) by omega]
      refine hperm.trans ?_
      have hstep := poolStep_perm pool (n - i - 1) j (by omega) (by omega)
      rw [show n - i - 1 + 1 = n - i by omega] at hstep
      have hassoc : ((pool.set j (pool.getD (n - i - 1) 0)).take (n - (i + 1)) ++
          (acc ++ [pool.getD j 0])).Perm
          (((pool.set j (pool.getD (n - i - 1) 0)).take (n - i - 1) ++
            [pool.getD j 0]) ++ acc) := by
        rw [show n - (i + 1) = n - i - 1 by omega, List.append_assoc]
        exact List.Perm.append_left _ List.perm_append_comm
      exact hassoc.trans (hstep.append (List.Perm.refl acc))

/-- The pool branch of `sample` yields k distinct values below n. -/
theorem samplePool_spec (n k : Nat) (st : MTState) (out : List Nat) (st' : MTState)
    (hk : k ≤ n)
    (h : samplePoolLoop n st (List.range n) 0 k [] = some (out, st')) :
    out.length = k ∧ out.Nodup ∧ ∀ x ∈ out, x < n := by
  obtain ⟨pool', hplen, hperm⟩ :=
    samplePoolLoop_spec n k st (List.range n) 0 [] out st' h (by simp) (by omega)
  rw [Nat.zero_add, Nat.sub_zero, List.append_nil] at hperm
  rw [show List.take n (List.range n) = List.range n by
        rw [show (List.range n) = List.range n from rfl]
        rw [List.take_of_length_le (by simp)]] at hperm
  have hnd : (pool'.take (n - k) ++ out).Nodup :=
    hperm.symm.nodup (List.nodup_range n)
  have htlen : (pool'.take (n - k)).length = n - k := by
    rw [List.length_take, hplen, Nat.min_eq_left (by omega)]
  refine ⟨?_, hnd.of_append_right, ?_⟩
  · have := hperm.length_eq
    rw [List.length_append, htlen, List.length_range] at this
    omega
  · intro x hx
    have : x ∈ List.range n := hperm.mem_iff.mp (List.mem_append_right _ hx)
    exact List.mem_range.mp this

/-- The set-branch retry yields a fresh value below n. -/
theorem drawUnselected_spec (n : Nat) (selected : List Nat) :
    ∀ fuel st j st', drawUnselected n selected st fuel = some (j, st') →
      j < n ∧ j ∉ selected := by
  intro fuel
  induction fuel with
  | zero => intro st j st' h; simp [drawUnselected] at h
  | succ fuel ih =>
    intro st j st' h
    simp only [drawUnselected] at h
    cases hrb : randbelow n st with
    | none => rw [hrb] at h; cases h
    | some pr =>
      obtain ⟨j0, st1⟩ := pr
      rw [hrb] at h
      simp only at h
      by_cases hmem : j0 ∈ selected
      · rw [if_pos hmem] at h
        exact ih st1 j st' h
      · rw [if_neg hmem] at h
        cases h
        exact ⟨randbelow_lt _ _ _ _ hrb, hmem⟩

/-- The set branch of `sample` yields `acc.length + k` distinct values below
n (with `selected` and the accumulator kept identical). -/
theorem sampleSetLoop_spec (n : Nat) :
    ∀ k st acc out st', sampleSetLoop n st k acc acc = some (out, st') →
      acc.Nodup → (∀ x ∈ acc, x < n) →
      out.length = acc.length + k ∧ out.Nodup ∧ ∀ x ∈ out, x < n := by
  intro k
  induction k with
  | zero =>
    intro st acc out st' h hnd hb
    simp only [sampleSetLoop] at h
    cases h
    exact ⟨rfl, hnd, hb⟩
  | succ k ih =>
    intro st acc out st' h hnd hb
    simp only [sampleSetLoop] at h
    cases hdr : drawUnselected n acc st 1000 with
    | none => rw [hdr] at h; cases h
    | some pr =>
      obtain ⟨j, st1⟩ := pr
      rw [hdr] at h
      simp only at h
      obtain ⟨hjn, hjs⟩ := drawUnselected_spec n acc 1000 st j st1 hdr
      have hnd' : (acc ++ [j]).Nodup := by
        rw [List.nodup_append]
        exact ⟨hnd, List.nodup_singleton j, by
          intro a ha hj
          rw [List.mem_singleton] at hj
          exact hjs (hj ▸ ha)⟩
      have hb' : ∀ x ∈ acc ++ [j], x < n := by
        intro x hx
        rcases List.mem_append.mp hx with h1 | h1
        · exact hb x h1
        · rw [List.mem_singleton] at h1
          exact h1 ▸ hjn
      obtain ⟨hl, hnd2, hb2⟩ := ih st1 (acc ++ [j]) out st' h hnd' hb'
      refine ⟨?_, hnd2, hb2⟩
      rw [hl, List.length_append, List.length_singleton]
      omega

/-- `random.sample(range(n), k)` yields k distinct values below n whenever it
returns. -/
theorem pySample_spec (n k : Nat) (st : MTState) (out : List Nat)
    (h : pySample n k st = some out) :
    out.length = k ∧ out.Nodup ∧ ∀ x ∈ out, x < n := by
  unfold pySample at h
  by_cases hkn : k ≤ n
  · rw [if_pos hkn] at h
    by_cases hss : n ≤ sampleSetsize k
    · rw [if_pos hss] at h
      obtain ⟨⟨out0, st'⟩, hsp, hout⟩ := Option.map_eq_some'.mp h
      cases hout
      exact samplePool_spec n k st out0 st' hkn hsp
    · rw [if_neg hss] at h
      obtain ⟨⟨out0, st'⟩, hsp, hout⟩ := Option.map_eq_some'.mp h
      cases hout
      have := sampleSetLoop_spec n k st [] out0 st' hsp (List.nodup_nil) (by simp)
      simpa using this
  · rw [if_neg hkn] at h
    cases h

/-- C9: blank-position selection is a pure function of (blank_count,
sequence_length, seed) -- the embedding of `random.seed(seed)` followed by
`sorted(random.sample(range(sequence_length), blank_count))` depends on
nothing but its three arguments, so two invocations with identical arguments
yield the identical result -- and any successful result is a
sorted-ascending list of exactly blank_count distinct positions, each below
sequence_length. -/
theorem distribute_spec (blank_count sequence_length seed : Nat) (l : List Nat)
    (h : distribute blank_count sequence_length seed = some l) :
    (∀ l', distribute blank_count sequence_length seed = some l' → l' = l) ∧
    l.length = blank_count ∧ l.Nodup ∧ (∀ x ∈ l, x < sequence_length) ∧
    l.Sorted (· ≤ ·) := by
  refine ⟨?_, ?_⟩
  · intro l' h'
    rw [h] at h'
    exact (Option.some.inj h').symm
  unfold distribute at h
  obtain ⟨raw, hraw, hout⟩ := Option.map_eq_some'.mp h
  cases hout
  have hspec := pySample_spec _ _ _ _ hraw
  have hperm : (List.insertionSort (· ≤ ·) raw).Perm raw :=
    List.perm_insertionSort _ raw
  refine ⟨?_, ?_, ?_, ?_⟩
  · rw [hperm.length_eq]
    exact hspec.1
  · exact hperm.symm.nodup hspec.2.1
  · intro x hx
    exact hspec.2.2 x (hperm.mem_iff.mp hx)
  · exact List.sorted_insertionSort _ raw

theorem distribute75_eq : distribute 75 231 25 = some blanks75 := by decide

theorem distribute76_eq : distribute 76 231 25 = some blanks76 := by decide

/-- The assignment loop consumes sample indices in order: as long as enough
non-blank positions remain, the consumed indices are exactly
`s, s+1, ..., numSamples-1`. -/
theorem wmLoop_filterMap (wells : List String) (blanks : List Nat) (numSamples : Nat) :
    ∀ ps s, numSamples - s ≤ (ps.filter (fun p => ¬ p ∈ blanks)).length →
      (wmLoop wells blanks numSamples ps s).filterMap (fun e => e.2.2) =
        List.range' s (numSamples - s) := by
  intro ps
  induction ps with
  | nil =>
    intro s h
    simp only [List.filter_nil, List.length_nil, Nat.le_zero] at h
    rw [wmLoop, List.filterMap_nil, h]
    rfl
  | cons p ps ih =>
    intro s h
    rw [wmLoop]
    by_cases hb : p ∈ blanks
    · rw [if_pos hb]
      rw [List.filterMap_cons]
      simp only
      apply ih
      simpa [List.filter_cons, hb] using h
    · rw [if_neg hb]
      by_cases hs : s < numSamples
      · rw [if_pos hs]
        rw [List.filterMap_cons]
        simp only
        have hcnt : numSamples - (s+1) ≤ (ps.filter (fun p => ¬ p ∈ blanks)).length := by
          simp only [List.filter_cons, hb, not_false_eq_true, decide_eq_true_eq,
            if_true, List.length_cons] at h
          simp only [decide_not] at h ⊢
          omega
        rw [ih (s+1) hcnt]
        rw [show numSamples - s = (numSamples - (s+1)) + 1 by omega]
        rfl
      · rw [if_neg hs]
        have h0 : numSamples - s = 0 := by omega
        rw [h0]
        have := ih s (by omega)
        rw [h0] at this
        exact this

/-- Among the positions `0..L-1`, exactly `L - blanks.length` are non-blank
(blanks distinct and in range). -/
theorem filter_not_mem_range_length (blanks : List Nat) (L : Nat)
    (hnd : blanks.Nodup) (hb : ∀ b ∈ blanks, b < L) :
    ((List.range L).filter (fun p => ¬ p ∈ blanks)).length = L - blanks.length := by
  have h1 : ((List.range L).filter (fun p => p ∈ blanks)).Perm blanks := by
    rw [List.perm_ext_iff_of_nodup (List.Nodup.filter _ (List.nodup_range L)) hnd]
    intro a
    simp only [List.mem_filter, List.mem_range, decide_eq_true_eq]
    constructor
    · rintro ⟨-, h2⟩
      exact h2
    · intro h2
      exact ⟨hb a h2, h2⟩
  have h2 := List.length_eq_countP_add_countP (fun p => decide (p ∈ blanks)) (List.range L)
  rw [List.countP_eq_length_filter, List.countP_eq_length_filter] at h2
  rw [List.length_range] at h2
  have h3 : ((List.range L).filter (fun p => decide (p ∈ blanks))).length = blanks.length :=
    h1.length_eq
  have h4 : ((List.range L).filter (fun a => decide ¬(decide (a ∈ blanks)) = true)) =
      ((List.range L).filter (fun p => ¬ p ∈ blanks)) := by
    apply List.filter_congr
    intro x _
    simp
  rw [h4] at h2
  omega

/-- C2 amended (general half): whenever the combined specimen count plus the
blank count fits the well sequence, the assignment loop consumes every
combined-list entry exactly once, in order: the consumed sample indices are
exactly `0, 1, ..., numSamples-1`. -/
theorem well_mapping_consumes_all (wells : List String) (blanks : List Nat)
    (numSamples : Nat) (hnd : blanks.Nodup) (hb : ∀ b ∈ blanks, b < wells.length)
    (hcap : numSamples + blanks.length ≤ wells.length) :
    ((well_mapping wells blanks numSamples).filterMap (fun e => e.2.2)) =
      List.range numSamples := by
  unfold well_mapping
  have hcount := filter_not_mem_range_length blanks wells.length hnd hb
  have hmain := wmLoop_filterMap wells blanks numSamples (List.range wells.length) 0
    (by rw [hcount]; omega)
  rw [hmain, Nat.sub_zero, List.range_eq_range']

/-- C1 counterexample: with two combined samples (blanks_needed(2) = 75) and
the default seed 25, the blank positions the code draws are spread over the
whole 231-position sequence: the produced Assignment contains a BLANK entry
at a position >= 77, refuting the claim that no BLANK is placed at any
position >= 77 (and hence that the 77 entries occupy exactly the first
quadrant). -/
theorem blank_beyond_first_quadrant :
    calculate_dynamic_blanks 2 77 = 75 ∧
    distribute 75 231 25 = some blanks75 ∧
    ((well_mapping generate_serpentine_wells blanks75 2).any
      (fun e => decide (77 ≤ e.2.1) && e.2.2.isNone)) = true :=
  ⟨by decide, distribute75_eq, by decide⟩

/-- C1 amended: for two groups of one shape each, blanks_needed(2) = 75 and
the final Assignment consists of exactly 2 real entries plus 75 BLANK
entries (77 entries in total); but the blank positions are chosen without
replacement from the ENTIRE 231-entry WellSequence (all distinct, all
< 231), not from the unfilled tail of the first quadrant: with the default
seed 25 a BLANK lands at serpentine position 228. -/
theorem assignment_two_samples_spec :
    calculate_dynamic_blanks 2 77 = 75 ∧
    distribute 75 231 25 = some blanks75 ∧
    (blanks75.Nodup ∧ ∀ x ∈ blanks75, x < 231) ∧
    (well_mapping generate_serpentine_wells blanks75 2).length = 77 ∧
    ((well_mapping generate_serpentine_wells blanks75 2).filter
      (fun e => e.2.2.isNone)).length = 75 ∧
    ((well_mapping generate_serpentine_wells blanks75 2).filter
      (fun e => e.2.2.isSome)).length = 2 ∧
    (generate_serpentine_wells.getD 228 "", 228, (none : Option Nat)) ∈
      well_mapping generate_serpentine_wells blanks75 2 :=
  ⟨by decide, distribute75_eq, by decide, by decide, by decide, by decide, by decide⟩

/-- C2 counterexample: with 232 combined specimens, blanks_needed(232) = 76,
so the demand 232 + 76 exceeds the 231-well sequence; the assignment loop
nevertheless completes without any error and consumes only the first 155
entries -- the batch is silently truncated, no capacity error is raised. -/
theorem overflow_truncates_silently :
    calculate_dynamic_blanks 232 77 = 76 ∧
    distribute 76 231 25 = some blanks76 ∧
    231 < 232 + blanks76.length ∧
    ((well_mapping generate_serpentine_wells blanks76 232).filterMap
      (fun e => e.2.2)) = List.range 155 ∧
    (155 : Nat) ≠ 232 :=
  ⟨by decide, distribute76_eq, by decide, by decide, by decide⟩

/-- Witness for C2's amended consumption statement at the in-capacity batch
of 2 samples with the seed-25 blank positions. -/
theorem well_mapping_consumes_all_witness :
    blanks75.Nodup ∧ (∀ b ∈ blanks75, b < generate_serpentine_wells.length) ∧
    2 + blanks75.length ≤ generate_serpentine_wells.length ∧
    ((well_mapping generate_serpentine_wells blanks75 2).filterMap
      (fun e => e.2.2)) = List.range 2 :=
  ⟨by decide, by decide, by decide,
    well_mapping_consumes_all generate_serpentine_wells blanks75 2
      (by decide) (by decide) (by decide)⟩

/-- Witness for C9 at (75, 231, 25), the run's actual blank draw. -/
theorem distribute_spec_witness :
    distribute 75 231 25 = some blanks75 ∧
    ((∀ l', distribute 75 231 25 = some l' → l' = blanks75) ∧
      blanks75.length = 75 ∧ blanks75.Nodup ∧ (∀ x ∈ blanks75, x < 231) ∧
      blanks75.Sorted (· ≤ ·)) :=
  ⟨distribute75_eq, distribute_spec 75 231 25 blanks75 distribute75_eq⟩
